import Mathlib

/-!
Verification of the filename-parsing / classification / matching core of the
Advanced-Media-File-Searcher repository (src/base_parser.py, src/movie_parser.py,
src/tv_show_parser.py, src/media_classifier.py, src/filetracker.py,
src/search_service.py).

Strings are modelled as `List Char` (ASCII: the Python code applies `str.lower`,
`\b`, `\d`, `\s` to filenames; we model the ASCII behaviour of those
constructs).  Each Python regex is embedded as an explicit matcher with
Python's semantics: leftmost match, ordered alternation, greedy quantifiers
with backtracking, `\b` word boundaries, `re.IGNORECASE` via lowercasing.
-/

/-! ## Character classes (Python `\w`, `\d`, `\s`, `str.lower`) -/

/-- Python `\w` for ASCII text: letters, digits, underscore. -/
def isWordChar (c : Char) : Bool :=
  c.isAlpha || c.isDigit || c = '_'

/-- Python `\s` for ASCII text. -/
def isSpaceChar (c : Char) : Bool :=
  c = ' ' || c = '\t' || c = '\n' || c = '\r' || c = '\x0b' || c = '\x0c'

/-- ASCII model of Python `str.lower` applied to one character. -/
def lowerChar (c : Char) : Char :=
  if 65 ≤ c.toNat ∧ c.toNat ≤ 90 then Char.ofNat (c.toNat + 32) else c

/-- The separators replaced by a space in
`BaseParser._normalize_string_for_comparison` (`re.sub(r'[._-]', ' ', text)`). -/
def isSepChar (c : Char) : Bool :=
  c = '.' || c = '_' || c = '-'

/-- One character of the separator-replacement pass. -/
def sepToSpace (c : Char) : Char :=
  if isSepChar c then ' ' else c

/-- Combined character action of `text.lower()` followed by
`re.sub(r'[._-]', ' ', text)` (both are character-wise). -/
def normStep (c : Char) : Char :=
  sepToSpace (lowerChar c)

/-! ## `_normalize_string_for_comparison` (base_parser.py lines 20-33) -/

/-- `re.sub(r'\s+', ' ', text)`: collapse every maximal run of whitespace to a
single space.  The flag records whether we are inside a whitespace run. -/
def collapseWs : Bool → List Char → List Char
  | _, [] => []
  | inWs, c :: rest =>
    if isSpaceChar c then
      if inWs then collapseWs true rest else ' ' :: collapseWs true rest
    else c :: collapseWs false rest

/-- Remove trailing whitespace (the right half of Python `str.strip`). -/
def dropTrailWs : List Char → List Char
  | [] => []
  | c :: r =>
    let r' := dropTrailWs r
    if r'.isEmpty then (if isSpaceChar c then [] else [c]) else c :: r'

/-- Python `str.strip()`: remove leading and trailing whitespace. -/
def pyStrip (s : List Char) : List Char :=
  dropTrailWs (s.dropWhile isSpaceChar)

/-- `BaseParser._normalize_string_for_comparison`: empty guard, lowercase,
replace `[._-]` by spaces, collapse whitespace runs, strip. -/
def pyNormalize (s : List Char) : List Char :=
  if s.isEmpty then [] else pyStrip (collapseWs false (s.map normStep))

/-- The `if not text: return ""` guard also covers a `None` argument; model the
optional argument explicitly. -/
def pyNormalizeOpt : Option (List Char) → List Char
  | none => []
  | some s => pyNormalize s

/-! ### Character-level lemmas -/

theorem lowerChar_toNat (c : Char) (h : 65 ≤ c.toNat ∧ c.toNat ≤ 90) :
    (lowerChar c).toNat = c.toNat + 32 := by
  have hv : (c.toNat + 32).isValidChar := by
    left
    omega
  unfold lowerChar
  rw [if_pos h]
  unfold Char.ofNat
  rw [dif_pos hv]
  rfl

theorem lowerChar_fix (c : Char) (h : ¬(65 ≤ c.toNat ∧ c.toNat ≤ 90)) :
    lowerChar c = c := by
  unfold lowerChar
  rw [if_neg h]

theorem lowerChar_idem (c : Char) : lowerChar (lowerChar c) = lowerChar c := by
  by_cases h : 65 ≤ c.toNat ∧ c.toNat ≤ 90
  · have ht := lowerChar_toNat c h
    exact lowerChar_fix (lowerChar c) (by rw [ht]; omega)
  · rw [lowerChar_fix c h, lowerChar_fix c h]

theorem normStep_of_sep (c : Char) (h : isSepChar (lowerChar c) = true) :
    normStep c = ' ' := by
  unfold normStep sepToSpace
  rw [if_pos h]

theorem normStep_of_not_sep (c : Char) (h : ¬isSepChar (lowerChar c) = true) :
    normStep c = lowerChar c := by
  unfold normStep sepToSpace
  rw [if_neg h]

theorem normStep_space : normStep ' ' = ' ' := by decide

theorem normStep_idem (c : Char) : normStep (normStep c) = normStep c := by
  by_cases h : isSepChar (lowerChar c) = true
  · rw [normStep_of_sep c h, normStep_space]
  · rw [normStep_of_not_sep c h, normStep_of_not_sep (lowerChar c)
      (by rw [lowerChar_idem]; exact h)]
    rw [lowerChar_idem]

/-! ### Normal form of `pyNormalize` output, towards idempotence -/

def headIsSpace : List Char → Bool
  | [] => false
  | c :: _ => isSpaceChar c

def lastIsSpace : List Char → Bool
  | [] => false
  | [c] => isSpaceChar c
  | _ :: r => lastIsSpace r

def noAdjSpace : List Char → Bool
  | a :: b :: r => !(a == ' ' && b == ' ') && noAdjSpace (b :: r)
  | _ => true

theorem lastIsSpace_cons (c : Char) (r : List Char) (h : r ≠ []) :
    lastIsSpace (c :: r) = lastIsSpace r := by
  cases r with
  | nil => exact absurd rfl h
  | cons x r2 => rfl

theorem noAdjSpace_tail (a : Char) (l : List Char) (h : noAdjSpace (a :: l) = true) :
    noAdjSpace l = true := by
  cases l with
  | nil => rfl
  | cons b r =>
    simp only [noAdjSpace, Bool.and_eq_true] at h
    exact h.2

theorem noAdjSpace_cons_of_ne (a : Char) (l : List Char) (ha : ¬a = ' ')
    (hl : noAdjSpace l = true) : noAdjSpace (a :: l) = true := by
  cases l with
  | nil => rfl
  | cons b r =>
    simp only [noAdjSpace, Bool.and_eq_true]
    refine ⟨?_, hl⟩
    simp [ha]

theorem noAdjSpace_cons_of_head (a : Char) (l : List Char)
    (hl : noAdjSpace l = true) (hh : headIsSpace l = false) :
    noAdjSpace (a :: l) = true := by
  cases l with
  | nil => rfl
  | cons b r =>
    simp only [noAdjSpace, Bool.and_eq_true]
    refine ⟨?_, hl⟩
    have hb : ¬b = ' ' := by
      intro hb
      rw [hb] at hh
      simp [headIsSpace, isSpaceChar] at hh
    simp [hb]

theorem mem_collapseWs (b : Bool) (s : List Char) (c : Char)
    (h : c ∈ collapseWs b s) : c ∈ s ∨ c = ' ' := by
  induction s generalizing b with
  | nil => simp [collapseWs] at h
  | cons x r ih =>
    unfold collapseWs at h
    by_cases hx : isSpaceChar x = true
    · rw [if_pos hx] at h
      by_cases hb : b = true
      · rw [if_pos hb] at h
        rcases ih true h with h' | h'
        · exact Or.inl (List.mem_cons_of_mem x h')
        · exact Or.inr h'
      · rw [if_neg hb] at h
        rcases List.mem_cons.mp h with h' | h'
        · exact Or.inr h'
        · rcases ih true h' with h'' | h''
          · exact Or.inl (List.mem_cons_of_mem x h'')
          · exact Or.inr h''
    · rw [if_neg hx] at h
      rcases List.mem_cons.mp h with h' | h'
      · exact Or.inl (h' ▸ List.mem_cons_self x r)
      · rcases ih false h' with h'' | h''
        · exact Or.inl (List.mem_cons_of_mem x h'')
        · exact Or.inr h''

theorem space_mem_collapseWs (b : Bool) (s : List Char) (c : Char)
    (h : c ∈ collapseWs b s) (hc : isSpaceChar c = true) : c = ' ' := by
  induction s generalizing b with
  | nil => simp [collapseWs] at h
  | cons x r ih =>
    unfold collapseWs at h
    by_cases hx : isSpaceChar x = true
    · rw [if_pos hx] at h
      by_cases hb : b = true
      · rw [if_pos hb] at h
        exact ih true h
      · rw [if_neg hb] at h
        rcases List.mem_cons.mp h with h' | h'
        · exact h'
        · exact ih true h'
    · rw [if_neg hx] at h
      rcases List.mem_cons.mp h with h' | h'
      · rw [h'] at hc
        exact absurd hc (by simp [hx])
      · exact ih false h'

theorem headIsSpace_collapseWs_true (s : List Char) :
    headIsSpace (collapseWs true s) = false := by
  induction s with
  | nil => rfl
  | cons x r ih =>
    unfold collapseWs
    by_cases hx : isSpaceChar x = true
    · rw [if_pos hx, if_pos rfl]
      exact ih
    · rw [if_neg hx]
      simpa [headIsSpace] using hx

theorem noAdjSpace_collapseWs (b : Bool) (s : List Char) :
    noAdjSpace (collapseWs b s) = true := by
  induction s generalizing b with
  | nil => rfl
  | cons x r ih =>
    unfold collapseWs
    by_cases hx : isSpaceChar x = true
    · rw [if_pos hx]
      by_cases hb : b = true
      · rw [if_pos hb]
        exact ih true
      · rw [if_neg hb]
        exact noAdjSpace_cons_of_head ' ' _ (ih true) (headIsSpace_collapseWs_true r)
    · rw [if_neg hx]
      have hxs : ¬x = ' ' := by
        intro hx'
        rw [hx'] at hx
        simp [isSpaceChar] at hx
      exact noAdjSpace_cons_of_ne x _ hxs (ih false)

theorem headIsSpace_dropWhile (s : List Char) :
    headIsSpace (s.dropWhile isSpaceChar) = false := by
  induction s with
  | nil => rfl
  | cons x r ih =>
    rw [List.dropWhile_cons]
    by_cases hx : isSpaceChar x = true
    · rw [if_pos hx]
      exact ih
    · rw [if_neg hx]
      simpa [headIsSpace] using hx

theorem mem_dropWhileWs (s : List Char) (c : Char)
    (h : c ∈ s.dropWhile isSpaceChar) : c ∈ s :=
  (List.dropWhile_sublist _).subset h

theorem noAdjSpace_dropWhileWs (s : List Char) (hs : noAdjSpace s = true) :
    noAdjSpace (s.dropWhile isSpaceChar) = true := by
  induction s with
  | nil => exact hs
  | cons x r ih =>
    rw [List.dropWhile_cons]
    by_cases hx : isSpaceChar x = true
    · rw [if_pos hx]
      exact ih (noAdjSpace_tail x r hs)
    · rw [if_neg hx]
      exact hs

theorem mem_dropTrailWs (s : List Char) (c : Char) (h : c ∈ dropTrailWs s) :
    c ∈ s := by
  induction s with
  | nil => simp [dropTrailWs] at h
  | cons x r ih =>
    unfold dropTrailWs at h
    by_cases he : (dropTrailWs r).isEmpty = true
    · rw [if_pos he] at h
      by_cases hx : isSpaceChar x = true
      · rw [if_pos hx] at h
        simp at h
      · rw [if_neg hx] at h
        rcases List.mem_cons.mp h with h' | h'
        · exact h' ▸ List.mem_cons_self x r
        · simp at h'
    · rw [if_neg he] at h
      rcases List.mem_cons.mp h with h' | h'
      · exact h' ▸ List.mem_cons_self x r
      · exact List.mem_cons_of_mem x (ih h')

theorem head?_dropTrailWs (s : List Char) (h : dropTrailWs s ≠ []) :
    (dropTrailWs s).head? = s.head? := by
  cases s with
  | nil => simp [dropTrailWs] at h
  | cons x r =>
    unfold dropTrailWs at h ⊢
    by_cases he : (dropTrailWs r).isEmpty = true
    · rw [if_pos he] at h ⊢
      by_cases hx : isSpaceChar x = true
      · rw [if_pos hx] at h
        exact absurd rfl h
      · rw [if_neg hx]
        rfl
    · rw [if_neg he] at h ⊢
      rfl

theorem headIsSpace_dropTrailWs (s : List Char) (hs : headIsSpace s = false) :
    headIsSpace (dropTrailWs s) = false := by
  cases s with
  | nil => rfl
  | cons x r =>
    unfold dropTrailWs
    by_cases he : (dropTrailWs r).isEmpty = true
    · rw [if_pos he]
      by_cases hx : isSpaceChar x = true
      · rw [if_pos hx]
        rfl
      · rw [if_neg hx]
        simpa [headIsSpace] using hx
    · rw [if_neg he]
      simpa [headIsSpace] using hs

theorem lastIsSpace_dropTrailWs (s : List Char) :
    lastIsSpace (dropTrailWs s) = false := by
  induction s with
  | nil => rfl
  | cons x r ih =>
    unfold dropTrailWs
    by_cases he : (dropTrailWs r).isEmpty = true
    · rw [if_pos he]
      by_cases hx : isSpaceChar x = true
      · rw [if_pos hx]
        rfl
      · rw [if_neg hx]
        simpa [lastIsSpace] using hx
    · rw [if_neg he]
      have hne : dropTrailWs r ≠ [] := by
        intro h0
        rw [h0] at he
        simp at he
      rw [lastIsSpace_cons x _ hne]
      exact ih

theorem noAdjSpace_dropTrailWs (s : List Char) (hs : noAdjSpace s = true) :
    noAdjSpace (dropTrailWs s) = true := by
  induction s with
  | nil => exact hs
  | cons x r ih =>
    unfold dropTrailWs
    by_cases he : (dropTrailWs r).isEmpty = true
    · rw [if_pos he]
      by_cases hx : isSpaceChar x = true
      · rw [if_pos hx]
        rfl
      · rw [if_neg hx]
        rfl
    · rw [if_neg he]
      have hne : dropTrailWs r ≠ [] := by
        intro h0
        rw [h0] at he
        simp at he
      have hr : noAdjSpace (dropTrailWs r) = true := ih (noAdjSpace_tail x r hs)
      cases hdr : dropTrailWs r with
      | nil => exact absurd hdr hne
      | cons y t =>
        have hy : (dropTrailWs r).head? = r.head? := head?_dropTrailWs r hne
        rw [hdr] at hy hr
        cases r with
        | nil => simp [dropTrailWs] at hdr
        | cons z r2 =>
          simp at hy
          simp only [noAdjSpace, Bool.and_eq_true] at hs ⊢
          refine ⟨?_, hr⟩
          rw [hy]
          exact hs.1

/-! ### Identity of each normalization pass on already-normal strings -/

theorem map_normStep_fixed (s : List Char) (h : ∀ c ∈ s, normStep c = c) :
    s.map normStep = s := by
  induction s with
  | nil => rfl
  | cons x r ih =>
    rw [List.map_cons, h x (List.mem_cons_self x r),
      ih (fun c hc => h c (List.mem_cons_of_mem x hc))]

theorem collapseWs_fixed (s : List Char)
    (hws : ∀ c ∈ s, isSpaceChar c = true → c = ' ') (hadj : noAdjSpace s = true) :
    collapseWs false s = s ∧ (headIsSpace s = false → collapseWs true s = s) := by
  induction s with
  | nil => exact ⟨rfl, fun _ => rfl⟩
  | cons x r ih =>
    have hws' : ∀ c ∈ r, isSpaceChar c = true → c = ' ' :=
      fun c hc => hws c (List.mem_cons_of_mem x hc)
    have ih' := ih hws' (noAdjSpace_tail x r hadj)
    by_cases hx : isSpaceChar x = true
    · have hx' : x = ' ' := hws x (List.mem_cons_self x r) hx
      constructor
      · unfold collapseWs
        rw [if_pos hx, if_neg (by simp)]
        have hr : headIsSpace r = false := by
          subst hx'
          cases r with
          | nil => rfl
          | cons y t =>
            simp only [noAdjSpace, Bool.and_eq_true] at hadj
            have hy : ¬y = ' ' := by
              intro hy
              rw [hy] at hadj
              simp at hadj
            cases hys : isSpaceChar y with
            | false => simpa [headIsSpace] using hys
            | true => exact absurd (hws' y (List.mem_cons_self y t) hys) hy
        rw [ih'.2 hr, hx']
      · intro hh
        rw [headIsSpace] at hh
        rw [hx] at hh
        simp at hh
    · constructor
      · unfold collapseWs
        rw [if_neg hx, ih'.1]
      · intro _
        unfold collapseWs
        rw [if_neg hx, ih'.1]

theorem dropWhileWs_fixed (s : List Char) (h : headIsSpace s = false) :
    s.dropWhile isSpaceChar = s := by
  cases s with
  | nil => rfl
  | cons x r =>
    rw [List.dropWhile_cons, if_neg (by simpa [headIsSpace] using h)]

theorem dropTrailWs_fixed (s : List Char) (h : lastIsSpace s = false) :
    dropTrailWs s = s := by
  induction s with
  | nil => rfl
  | cons x r ih =>
    cases r with
    | nil =>
      unfold dropTrailWs
      simp only [dropTrailWs, List.isEmpty_nil, if_pos]
      rw [if_neg (by simpa [lastIsSpace] using h)]
    | cons y t =>
      rw [lastIsSpace_cons x _ (by simp)] at h
      have hr := ih h
      unfold dropTrailWs
      rw [hr]
      simp

theorem pyStrip_fixed (s : List Char) (hh : headIsSpace s = false)
    (hl : lastIsSpace s = false) : pyStrip s = s := by
  unfold pyStrip
  rw [dropWhileWs_fixed s hh, dropTrailWs_fixed s hl]

/-! ### `pyNormalize` output is normal, and idempotence -/

theorem pyNormalize_fixedChars (s : List Char) (c : Char)
    (h : c ∈ pyNormalize s) : normStep c = c := by
  unfold pyNormalize at h
  by_cases he : s.isEmpty = true
  · rw [if_pos he] at h
    simp at h
  · rw [if_neg he] at h
    unfold pyStrip at h
    have h1 : c ∈ collapseWs false (s.map normStep) :=
      mem_dropWhileWs _ c (mem_dropTrailWs _ c h)
    rcases mem_collapseWs false _ c h1 with h2 | h2
    · rcases List.mem_map.mp h2 with ⟨d, _, hd⟩
      rw [← hd]
      exact normStep_idem d
    · rw [h2]
      exact normStep_space

theorem pyNormalize_wsOnly (s : List Char) (c : Char)
    (h : c ∈ pyNormalize s) (hc : isSpaceChar c = true) : c = ' ' := by
  unfold pyNormalize at h
  by_cases he : s.isEmpty = true
  · rw [if_pos he] at h
    simp at h
  · rw [if_neg he] at h
    unfold pyStrip at h
    exact space_mem_collapseWs false _ c
      (mem_dropWhileWs _ c (mem_dropTrailWs _ c h)) hc

theorem pyNormalize_noAdj (s : List Char) : noAdjSpace (pyNormalize s) = true := by
  unfold pyNormalize
  by_cases he : s.isEmpty = true
  · rw [if_pos he]
    rfl
  · rw [if_neg he]
    unfold pyStrip
    exact noAdjSpace_dropTrailWs _ (noAdjSpace_dropWhileWs _ (noAdjSpace_collapseWs false _))

theorem pyNormalize_headOk (s : List Char) : headIsSpace (pyNormalize s) = false := by
  unfold pyNormalize
  by_cases he : s.isEmpty = true
  · rw [if_pos he]
    rfl
  · rw [if_neg he]
    unfold pyStrip
    exact headIsSpace_dropTrailWs _ (headIsSpace_dropWhile _)

theorem pyNormalize_lastOk (s : List Char) : lastIsSpace (pyNormalize s) = false := by
  unfold pyNormalize
  by_cases he : s.isEmpty = true
  · rw [if_pos he]
    rfl
  · rw [if_neg he]
    unfold pyStrip
    exact lastIsSpace_dropTrailWs _

theorem pyNormalize_idem (s : List Char) :
    pyNormalize (pyNormalize s) = pyNormalize s := by
  have hfix := pyNormalize_fixedChars s
  have hws := pyNormalize_wsOnly s
  have hadj := pyNormalize_noAdj s
  have hh := pyNormalize_headOk s
  have hl := pyNormalize_lastOk s
  generalize ht : pyNormalize s = t at hfix hws hadj hh hl ⊢
  by_cases he : t.isEmpty = true
  · unfold pyNormalize
    rw [if_pos he]
    cases t with
    | nil => rfl
    | cons x r => simp at he
  · unfold pyNormalize
    rw [if_neg he]
    rw [map_normStep_fixed t hfix]
    rw [(collapseWs_fixed t hws hadj).1]
    exact pyStrip_fixed t hh hl

/-! ## Generic regex scaffolding

Each compiled pattern of `BaseParser.__init__` is embedded as a matcher that
tries the pattern at one position of the text.  `re.search` / `re.sub`
semantics (leftmost match, scan left to right) are recovered by the generic
scanners below. -/

/-- `\b` before a match that begins with a word character: the previous
character (if any) must not be a word character. -/
def bdryBefore : Option Char → Bool
  | none => true
  | some c => !isWordChar c

/-- `\b` after a match that ends with a word character: the next character
(if any) must not be a word character. -/
def bdryAfter : List Char → Bool
  | [] => true
  | c :: _ => !isWordChar c

/-- A matcher receives the previous character of the original text (context
for `\b`) and the remaining text; on success it returns the length consumed
by `group(0)` together with the captured value used by the caller. -/
abbrev RexMatcher := Option Char → List Char → Option (Nat × List Char)

/-- `re.search(p, s) is not None`: try every position, left to right. -/
def reTest (m : RexMatcher) : Option Char → List Char → Bool
  | prev, [] => (m prev []).isSome
  | prev, c :: rest => (m prev (c :: rest)).isSome || reTest m (some c) rest

def reSearch (m : RexMatcher) (s : List Char) : Bool := reTest m none s

/-- First (leftmost) match of `re.search`, returning the matcher's result. -/
def reCapAux (m : RexMatcher) : Option Char → List Char → Option (Nat × List Char)
  | prev, [] => m prev []
  | prev, c :: rest =>
    match m prev (c :: rest) with
    | some r => some r
    | none => reCapAux m (some c) rest

/-- Captured value of the first match, as used by the parsers. -/
def reCap (m : RexMatcher) (s : List Char) : Option (List Char) :=
  (reCapAux m none s).map (fun r => r.2)

/-- `re.sub(p, '', s)`: delete every non-overlapping match, scanning left to
right; after a match the scan resumes right after it (the `\b` context is the
last consumed character).  Every matcher in this file consumes at least one
character on success; the fuel (initialized to the text length, enough for
any scan) and the `max 1` guard merely certify termination structurally. -/
def reSubFuel (m : RexMatcher) : Nat → Option Char → List Char → List Char
  | 0, _, l => l
  | _ + 1, _, [] => []
  | fuel + 1, prev, c :: rest =>
    match m prev (c :: rest) with
    | some r =>
      reSubFuel m fuel ((c :: rest).take (max 1 r.1)).getLast?
        ((c :: rest).drop (max 1 r.1))
    | none => c :: reSubFuel m fuel (some c) rest

def reSub (m : RexMatcher) (s : List Char) : List Char :=
  reSubFuel m s.length none s

/-- If a pattern matches nowhere, `re.sub` is the identity. -/
theorem reSubFuel_of_not_found (m : RexMatcher) (fuel : Nat) :
    ∀ (s : List Char) (prev : Option Char),
      reTest m prev s = false → reSubFuel m fuel prev s = s := by
  induction fuel with
  | zero => intro s prev _; rfl
  | succ fuel ih =>
    intro s prev h
    cases s with
    | nil => rfl
    | cons c rest =>
      unfold reTest at h
      rw [Bool.or_eq_false_iff] at h
      have h1 : m prev (c :: rest) = none := by
        cases hm : m prev (c :: rest) with
        | none => rfl
        | some r =>
          rw [hm] at h
          simp at h
      unfold reSubFuel
      rw [h1, ih rest (some c) h.2]

theorem reSub_of_not_found (m : RexMatcher) (s : List Char)
    (h : reSearch m s = false) : reSub m s = s :=
  reSubFuel_of_not_found m s.length s none h

/-! ## Literal alternations with `\b` on both sides -/

/-- One atom of a literal alternative: a literal character (stored lowercase,
compared case-insensitively, modelling `re.IGNORECASE`) or the regex `.`
(any character except a newline). -/
inductive RexAtom where
  | lit (c : Char)
  | dot
deriving DecidableEq

def litOf (s : String) : List RexAtom := s.toList.map RexAtom.lit

/-- Match a fixed sequence of atoms at the start of the text. -/
def matchAtoms : List RexAtom → List Char → Option Nat
  | [], _ => some 0
  | _ :: _, [] => none
  | RexAtom.lit a :: ps, c :: rest =>
    if lowerChar c = a then (matchAtoms ps rest).map (· + 1) else none
  | RexAtom.dot :: ps, c :: rest =>
    if c = '\n' then none else (matchAtoms ps rest).map (· + 1)

/-- Ordered alternation `(A|B|...)` followed by `\b`: Python tries the
alternatives in written order and moves to the next one when the trailing
boundary fails (each alternative is a fixed literal, so this is the only
backtracking). -/
def tryAltList : List (List RexAtom) → List Char → Option Nat
  | [], _ => none
  | a :: as, s =>
    match matchAtoms a s with
    | some n => if bdryAfter (s.drop n) then some n else tryAltList as s
    | none => tryAltList as s

/-- `\b(A|B|...)\b` as a matcher; all alternatives used in the source start
and end with word characters, so `\b` reduces to the two boundary checks. -/
def altsMatcher (alts : List (List RexAtom)) : RexMatcher := fun prev s =>
  if bdryBefore prev then
    match tryAltList alts s with
    | some n => some (n, s.take n)
    | none => none
  else none

theorem tryAltList_isSome (alts : List (List RexAtom)) (s : List Char) :
    (tryAltList alts s).isSome = true ↔
      ∃ a ∈ alts, ∃ n, matchAtoms a s = some n ∧ bdryAfter (s.drop n) = true := by
  induction alts with
  | nil => simp [tryAltList]
  | cons a as ih =>
    unfold tryAltList
    cases hm : matchAtoms a s with
    | none =>
      rw [ih]
      constructor
      · rintro ⟨b, hb, n, hbn⟩
        exact ⟨b, List.mem_cons_of_mem a hb, n, hbn⟩
      · rintro ⟨b, hb, n, hbn⟩
        rcases List.mem_cons.mp hb with rfl | hb'
        · rw [hm] at hbn
          exact absurd hbn.1 (by simp)
        · exact ⟨b, hb', n, hbn⟩
    | some n =>
      dsimp only
      by_cases hb : bdryAfter (s.drop n) = true
      · rw [if_pos hb]
        simp only [Option.isSome_some, true_iff]
        exact ⟨a, List.mem_cons_self a as, n, hm, hb⟩
      · rw [if_neg hb]
        rw [ih]
        constructor
        · rintro ⟨b, hb', k, hbn⟩
          exact ⟨b, List.mem_cons_of_mem a hb', k, hbn⟩
        · rintro ⟨b, hb', k, hk, hkb⟩
          rcases List.mem_cons.mp hb' with rfl | hb''
          · rw [hm] at hk
            have : k = n := by injection hk with h2; omega
            subst this
            exact absurd hkb hb
          · exact ⟨b, hb'', k, hk, hkb⟩

/-- Monotonicity over a sublist of alternatives: if the matcher built from a
subset of alternatives fires, the larger one fires too (used to derive
`repack_pattern` non-matching from `version_pattern` non-matching). -/
theorem altsMatcher_mono (alts1 alts2 : List (List RexAtom))
    (hsub : ∀ a ∈ alts1, a ∈ alts2) (prev : Option Char) (s : List Char)
    (h : (altsMatcher alts1 prev s).isSome = true) :
    (altsMatcher alts2 prev s).isSome = true := by
  unfold altsMatcher at h ⊢
  by_cases hb : bdryBefore prev = true
  · rw [if_pos hb] at h ⊢
    cases h1 : tryAltList alts1 s with
    | none => rw [h1] at h; simp at h
    | some n =>
      have hs1 : (tryAltList alts1 s).isSome = true := by rw [h1]; rfl
      rcases (tryAltList_isSome alts1 s).mp hs1 with ⟨a, ha, k, hk⟩
      have hs2 : (tryAltList alts2 s).isSome = true :=
        (tryAltList_isSome alts2 s).mpr ⟨a, hsub a ha, k, hk⟩
      cases h2 : tryAltList alts2 s with
      | none => rw [h2] at hs2; simp at hs2
      | some k2 => simp
  · rw [if_neg hb] at h
    simp at h

theorem reTest_mono (m1 m2 : RexMatcher)
    (hm : ∀ prev s, (m1 prev s).isSome = true → (m2 prev s).isSome = true)
    (s : List Char) :
    ∀ prev, reTest m2 prev s = false → reTest m1 prev s = false := by
  induction s with
  | nil =>
    intro prev h
    unfold reTest at h ⊢
    cases h1 : m1 prev [] with
    | none => rfl
    | some r =>
      have := hm prev [] (by rw [h1]; rfl)
      cases h2 : m2 prev [] with
      | none => rw [h2] at this; simp at this
      | some r2 => rw [h2] at h; simp at h
  | cons c rest ih =>
    intro prev h
    unfold reTest at h ⊢
    rw [Bool.or_eq_false_iff] at h ⊢
    refine ⟨?_, ih (some c) h.2⟩
    cases h1 : m1 prev (c :: rest) with
    | none => rfl
    | some r =>
      have := hm prev (c :: rest) (by rw [h1]; rfl)
      cases h2 : m2 prev (c :: rest) with
      | none => rw [h2] at this; simp at this
      | some r2 =>
        have := h.1
        rw [h2] at this
        simp at this

/-! ## The concrete patterns of `BaseParser.__init__` (base_parser.py 7-18) -/

/-- `year_pattern = \b(\d{4})\b` (line 7): any four-digit token; the capture
is the token itself. -/
def yearMatcher : RexMatcher := fun prev s =>
  if bdryBefore prev then
    match s with
    | a :: b :: c :: d :: r =>
      if a.isDigit && b.isDigit && c.isDigit && d.isDigit && bdryAfter r then
        some (4, [a, b, c, d])
      else none
    | _ => none
  else none

/-- Alternatives of `resolution_pattern` (line 8), lowercased for IGNORECASE. -/
def resolutionAlts : List (List RexAtom) :=
  [litOf "480p", litOf "700p", litOf "720p", litOf "1080p", litOf "1440p",
   litOf "2160p", litOf "4k", litOf "8k"]

def resolutionMatcher : RexMatcher := altsMatcher resolutionAlts

/-- Alternatives of `source_pattern` (line 9). -/
def sourceAlts : List (List RexAtom) :=
  [litOf "web-dl", litOf "webrip", litOf "bluray", litOf "bdrip", litOf "dvdrip",
   litOf "hdrip", litOf "hdtv", litOf "dvd", litOf "vod", litOf "ddc",
   litOf "cam", litOf "ts", litOf "r5", litOf "wp", litOf "scr"]

def sourceMatcher : RexMatcher := altsMatcher sourceAlts

/-- Alternatives of `video_format_pattern` (line 10); the dots of `H\.264`
and `H\.265` are escaped in the source, hence literal here. -/
def videoFormatAlts : List (List RexAtom) :=
  [litOf "x264", litOf "x265", litOf "hevc", litOf "h.264", litOf "h.265",
   litOf "vp9", litOf "av1", litOf "xvid", litOf "divx"]

def videoFormatMatcher : RexMatcher := altsMatcher videoFormatAlts

/-- Alternatives of `audio_format_pattern` (line 11); `DD5\.1` has an escaped
(literal) dot. -/
def audioFormatAlts : List (List RexAtom) :=
  [litOf "ac3", litOf "dts", litOf "dts-hd", litOf "truehd", litOf "atmos",
   litOf "dd5.1", litOf "aac", litOf "mp3"]

def audioFormatMatcher : RexMatcher := altsMatcher audioFormatAlts

/-- Alternatives of `version_pattern` (line 14); the dots of `DIRECTORS.CUT`
and `COLLECTORS.EDITION` are NOT escaped in the source, so they are the
any-character atom. -/
def versionAlts : List (List RexAtom) :=
  [litOf "proper", litOf "repack", litOf "rerip", litOf "extended",
   litOf "uncut", litOf "unrated",
   litOf "directors" ++ [RexAtom.dot] ++ litOf "cut",
   litOf "remastered",
   litOf "collectors" ++ [RexAtom.dot] ++ litOf "edition"]

def versionMatcher : RexMatcher := altsMatcher versionAlts

/-- Alternatives of `bit_depth_pattern` (line 16). -/
def bitDepthAlts : List (List RexAtom) :=
  [litOf "8bit", litOf "10bit", litOf "12bit"]

def bitDepthMatcher : RexMatcher := altsMatcher bitDepthAlts

/-- Alternatives of `hdr_pattern` (line 17). -/
def hdrAlts : List (List RexAtom) :=
  [litOf "hdr", litOf "hdr10", litOf "dolbyvision", litOf "dv"]

def hdrMatcher : RexMatcher := altsMatcher hdrAlts

/-- Alternatives of `repack_pattern` (line 18); a subset of `versionAlts`. -/
def repackAlts : List (List RexAtom) :=
  [litOf "repack", litOf "proper"]

def repackMatcher : RexMatcher := altsMatcher repackAlts

/-- `language_pattern = \b(eng|ita|fre|deu|jpn|kor|spa|rus)(?:dub|sub)?\b`
(line 15): after a base language the optional group greedily tries `dub`,
then `sub`, then nothing, each followed by `\b`. -/
def langBases : List (List RexAtom) :=
  [litOf "eng", litOf "ita", litOf "fre", litOf "deu", litOf "jpn",
   litOf "kor", litOf "spa", litOf "rus"]

def langEmpty (s : List Char) (n : Nat) : Option Nat :=
  if bdryAfter (s.drop n) then some n else none

def langSub (s : List Char) (n : Nat) : Option Nat :=
  match matchAtoms (litOf "sub") (s.drop n) with
  | some m => if bdryAfter (s.drop (n + m)) then some (n + m) else langEmpty s n
  | none => langEmpty s n

def langAfterBase (s : List Char) (n : Nat) : Option Nat :=
  match matchAtoms (litOf "dub") (s.drop n) with
  | some m => if bdryAfter (s.drop (n + m)) then some (n + m) else langSub s n
  | none => langSub s n

def langTryBases : List (List RexAtom) → List Char → Option Nat
  | [], _ => none
  | b :: bs, s =>
    match matchAtoms b s with
    | some n =>
      match langAfterBase s n with
      | some k => some k
      | none => langTryBases bs s
    | none => langTryBases bs s

def languageMatcher : RexMatcher := fun prev s =>
  if bdryBefore prev then
    match langTryBases langBases s with
    | some n => some (n, s.take n)
    | none => none
  else none

/-! ## `group_tag_pattern = [-_. ]?(\[?[A-Za-z0-9_.-]+\]?)$` (line 13) -/

/-- The character class `[A-Za-z0-9_.-]` of the group-tag pattern. -/
def isGroupTagChar (c : Char) : Bool :=
  c.isAlpha || c.isDigit || c = '_' || c = '.' || c = '-'

/-- The optional leading separator class `[-_. ]`. -/
def isGroupSep (c : Char) : Bool :=
  c = '-' || c = '_' || c = '.' || c = ' '

/-- `\[?[A-Za-z0-9_.-]+\]?$` starting at `u`.  `$` matches the end of the
string or the position just before a single trailing newline.  Because `]`
and `\n` are outside the character class, the greedy `+` never needs to give
characters back: only the maximal run can be followed by `\]?$`.  Returns
(consumed length, capture of group 1). -/
def groupCoreRun (u : List Char) (br : Bool) : Option (Nat × List Char) :=
  let run := u.takeWhile isGroupTagChar
  let v := u.dropWhile isGroupTagChar
  if run.isEmpty then none
  else
    let pre : List Char := if br then ['['] else []
    match v with
    | [] => some (pre.length + run.length, pre ++ run)
    | [']'] => some (pre.length + run.length + 1, pre ++ run ++ [']'])
    | [']', '\n'] => some (pre.length + run.length + 1, pre ++ run ++ [']'])
    | ['\n'] => some (pre.length + run.length, pre ++ run)
    | _ => none

/-- `\[?` then the core: a leading `[` must be consumed by `\[?` because `[`
is not in the main character class. -/
def groupCore : List Char → Option (Nat × List Char)
  | [] => groupCoreRun [] false
  | c :: u1 => if c = '[' then groupCoreRun u1 true else groupCoreRun (c :: u1) false

/-- The whole group-tag pattern at one position: the greedy `[-_. ]?` first
tries to consume a separator, backtracking to the empty option if the rest
fails.  The `\b`-free pattern ignores the previous character. -/
def groupTagMatcher : RexMatcher := fun _ s =>
  match s with
  | c :: rest =>
    if isGroupSep c then
      match groupCore rest with
      | some (n, cap) => some (n + 1, cap)
      | none => groupCore s
    else groupCore s
  | [] => none

/-! ## Season/episode pattern
`\b[Ss](\d{1,2})[Ee](\d{1,2}(?:-\d{1,2})?)\b` (base_parser.py line 42) -/

/-- After the episode digits: greedy optional `-\d{1,2}` (two digits first,
then one, then nothing), then `\b`.  Returns extra consumed length and the
full episode capture (group 2). -/
def sxeTail (ep : List Char) (r : List Char) : Option (Nat × List Char) :=
  match r with
  | '-' :: e1 :: e2 :: r2 =>
    if e1.isDigit && e2.isDigit && bdryAfter r2 then some (3, ep ++ ['-', e1, e2])
    else if e1.isDigit && bdryAfter (e2 :: r2) then some (2, ep ++ ['-', e1])
    else if bdryAfter r then some (0, ep)
    else none
  | ['-', e1] =>
    if e1.isDigit then some (2, ep ++ ['-', e1])
    else if bdryAfter r then some (0, ep) else none
  | _ => if bdryAfter r then some (0, ep) else none

/-- Greedy `\d{1,2}` for the episode: two digits first, then one; each choice
continues with the optional range and the trailing `\b`. -/
def sxeEpDigits : List Char → Option (Nat × List Char)
  | d1 :: d2 :: r =>
    if d1.isDigit then
      if d2.isDigit then
        match sxeTail [d1, d2] r with
        | some (n, ep) => some (2 + n, ep)
        | none =>
          match sxeTail [d1] (d2 :: r) with
          | some (n, ep) => some (1 + n, ep)
          | none => none
      else
        match sxeTail [d1] (d2 :: r) with
        | some (n, ep) => some (1 + n, ep)
        | none => none
    else none
  | [d1] =>
    if d1.isDigit then (sxeTail [d1] []).map (fun p => (1 + p.1, p.2)) else none
  | [] => none

/-- `[Ee]` then the episode digits. -/
def sxeEp : List Char → Option (Nat × List Char)
  | c :: rest =>
    if lowerChar c = 'e' then (sxeEpDigits rest).map (fun p => (1 + p.1, p.2))
    else none
  | [] => none

/-- Greedy `\d{1,2}` for the season: two digits first, then one; returns
(consumed length after `S`, season digits, episode capture). -/
def sxeSeason : List Char → Option (Nat × List Char × List Char)
  | d1 :: d2 :: r =>
    if d1.isDigit then
      if d2.isDigit then
        match sxeEp r with
        | some (n, ep) => some (2 + n, [d1, d2], ep)
        | none =>
          match sxeEp (d2 :: r) with
          | some (n, ep) => some (1 + n, [d1], ep)
          | none => none
      else
        match sxeEp (d2 :: r) with
        | some (n, ep) => some (1 + n, [d1], ep)
        | none => none
    else none
  | [_] => none
  | [] => none

/-- The full SxxExx pattern at one position: `\b`, `[Ss]`, season digits,
`[Ee]`, episode digits with optional range, `\b`.  Returns (consumed length,
season digits, episode capture). -/
def sxeAt (prev : Option Char) : List Char → Option (Nat × List Char × List Char)
  | c :: rest =>
    if bdryBefore prev && (lowerChar c = 's') then
      (sxeSeason rest).map (fun p => (1 + p.1, p.2.1, p.2.2))
    else none
  | [] => none

/-- Leftmost SxxExx match with its position:
(start index, end index, season digits, episode capture). -/
def sxeScan : Option Char → List Char → Nat → Option (Nat × Nat × List Char × List Char)
  | _, [], _ => none
  | prev, c :: rest, i =>
    match sxeAt prev (c :: rest) with
    | some (n, sd, ep) => some (i, i + n, sd, ep)
    | none => sxeScan (some c) rest (i + 1)

/-- Numeric value of a digit string. -/
def digitsVal (s : List Char) : Nat :=
  s.foldl (fun n c => n * 10 + (c.toNat - 48)) 0

/-- Python `int(...)` on a fragment of digits: the episode fragments the code
feeds to `int` come from digit-only regex groups, so non-digit fragments are
the error (`ValueError`) case, modelled as `none`. -/
def pyParseNat (s : List Char) : Option Nat :=
  if s ≠ [] ∧ s.all Char.isDigit then some (digitsVal s) else none

/-- `BaseParser.extract_season_episode_from_string` (lines 35-50): returns
(season as parsed integer, episode capture, start, end) on a match, or the
sentinel (`None, None, -1, -1`) modelled as `none`. -/
def extractSxE (s : List Char) : Option (Option Nat × List Char × Nat × Nat) :=
  match sxeScan none s 0 with
  | some (st, en, sd, ep) => some (pyParseNat sd, ep, st, en)
  | none => none

/-! ## `extract_year_from_string`: `\b(19\d{2}|20\d{2})\b` (line 55) -/

def year1920Matcher : RexMatcher := fun prev s =>
  if bdryBefore prev then
    match s with
    | a :: b :: c :: d :: r =>
      if ((a = '1' && b = '9') || (a = '2' && b = '0')) && c.isDigit && d.isDigit
          && bdryAfter r then
        some (4, [a, b, c, d])
      else none
    | _ => none
  else none

/-- `BaseParser.extract_year_from_string` (lines 52-58): first match,
converted with `int`. -/
def extractYear (s : List Char) : Option Nat :=
  (reCapAux year1920Matcher none s).map (fun r => digitsVal r.2)

/-! ## Date pattern `\b\d{4}[.\s-]?\d{2}[.\s-]?\d{2}\b`
(tv_show_parser.py line 73) -/

def isDateSep (c : Char) : Bool :=
  c = '.' || isSpaceChar c || c = '-'

/-- Final `\d{2}\b`. -/
def dateEnd : List Char → Option Nat
  | a :: b :: r2 =>
    if a.isDigit && b.isDigit && bdryAfter r2 then some 2 else none
  | _ => none

/-- `[.\s-]?\d{2}\b`, greedy on the optional separator. -/
def dateTailSep (r : List Char) : Option Nat :=
  match r with
  | c :: r2 =>
    if isDateSep c then
      match dateEnd r2 with
      | some n => some (n + 1)
      | none => dateEnd r
    else dateEnd r
  | [] => none

/-- `\d{2}[.\s-]?\d{2}\b`. -/
def dateMid2 (r : List Char) : Option Nat :=
  match r with
  | a :: b :: r2 =>
    if a.isDigit && b.isDigit then (dateTailSep r2).map (· + 2) else none
  | _ => none

/-- `[.\s-]?\d{2}[.\s-]?\d{2}\b`, greedy on the first optional separator. -/
def dateMid (r : List Char) : Option Nat :=
  match r with
  | c :: r2 =>
    if isDateSep c then
      match dateMid2 r2 with
      | some n => some (n + 1)
      | none => dateMid2 r
    else dateMid2 r
  | [] => none

def dateMatcher : RexMatcher := fun prev s =>
  if bdryBefore prev then
    match s with
    | a :: b :: c :: d :: r =>
      if a.isDigit && b.isDigit && c.isDigit && d.isDigit then
        match dateMid r with
        | some n => some (4 + n, s.take (4 + n))
        | none => none
      else none
    | _ => none
  else none

/-! ## `BaseParser._clean_string_of_all_tags` (base_parser.py 60-91) -/

/-- Apply the destructive pattern removals in the fixed order of the source
(year, resolution, source, video, audio, version, language, bit depth, hdr,
repack), then the group-tag removal, then normalize. -/
def cleanAllTags (s : List Char) : List Char :=
  pyNormalize (reSub groupTagMatcher
    (reSub repackMatcher (reSub hdrMatcher (reSub bitDepthMatcher
      (reSub languageMatcher (reSub versionMatcher (reSub audioFormatMatcher
        (reSub videoFormatMatcher (reSub sourceMatcher (reSub resolutionMatcher
          (reSub yearMatcher s)))))))))))

/-! ## `MovieParser.parse_movie_filename` (movie_parser.py 9-59) -/

structure MovieParsed where
  title : List Char
  year : Option (List Char)
  resolution : Option (List Char)
  source : Option (List Char)
  video_format : Option (List Char)
  audio_format : Option (List Char)
  group_tag : Option (List Char)
  version : Option (List Char)
  original_filename : List Char

/-- All fields are non-destructive `search`es on the original stem; `year`
and `group_tag` report group 1, the others group 0; the title is the
tag-cleaned stem. -/
def parseMovie (stem : List Char) : MovieParsed :=
  { title := cleanAllTags stem
    year := reCap yearMatcher stem
    resolution := reCap resolutionMatcher stem
    source := reCap sourceMatcher stem
    video_format := reCap videoFormatMatcher stem
    audio_format := reCap audioFormatMatcher stem
    group_tag := reCap groupTagMatcher stem
    version := reCap versionMatcher stem
    original_filename := stem }

/-! ## `TvShowParser.parse_tv_show_filename` (tv_show_parser.py 9-116) -/

structure TvParsed where
  title : List Char
  season : Option Nat
  episode : Option (List Char)
  episode_title : Option (List Char)
  year : Option Nat
  resolution : Option (List Char)
  source : Option (List Char)
  video_format : Option (List Char)
  audio_format : Option (List Char)
  group_tag : Option (List Char)
  version : Option (List Char)
  language : Option (List Char)
  bit_depth : Option (List Char)
  hdr : Option (List Char)
  original_filename : List Char

/-- The episode-title stoplist of tv_show_parser.py line 57. -/
def tvStopList : List (List Char) :=
  ["hdtv", "webrip", "bluray", "x264", "x265", "killers", "proper",
   "repack"].map String.toList

/-- The text after the SxxExx token: strip, then drop one leading `.` or `-`
and strip again (tv_show_parser.py 47-51). -/
def postSxePart (stem : List Char) (en : Nat) : List Char :=
  let p0 := pyStrip (stem.drop en)
  match p0 with
  | c :: rest => if c = '.' ∨ c = '-' then pyStrip rest else p0
  | [] => p0

/-- Shared tail of `parse_tv_show_filename`: the whole-stem tag reads
(lines 82-107) plus the final title normalization with fallback to the
normalized stem (lines 110-114). -/
def mkTvParsed (stem title0 : List Char) (se : Option Nat)
    (ep et : Option (List Char)) (yr : Option Nat) : TvParsed :=
  { title := if title0.isEmpty then pyNormalize stem else pyNormalize title0
    season := se
    episode := ep
    episode_title := et
    year := yr
    resolution := reCap resolutionMatcher stem
    source := reCap sourceMatcher stem
    video_format := reCap videoFormatMatcher stem
    audio_format := reCap audioFormatMatcher stem
    group_tag := reCap groupTagMatcher stem
    version := reCap versionMatcher stem
    language := reCap languageMatcher stem
    bit_depth := reCap bitDepthMatcher stem
    hdr := reCap hdrMatcher stem
    original_filename := stem }

def parseTv (stem : List Char) : TvParsed :=
  match extractSxE stem with
  | some (seasonOpt, epStr, st, en) =>
    let cand := cleanAllTags (postSxePart stem en)
    let et := if cand ≠ [] ∧ cand ∉ tvStopList then some cand else none
    mkTvParsed stem (cleanAllTags (pyStrip (stem.take st))) seasonOpt (some epStr) et none
  | none =>
    match extractYear stem with
    | some y =>
      mkTvParsed stem (cleanAllTags (pyStrip (reSub dateMatcher stem))) none none none (some y)
    | none => mkTvParsed stem (cleanAllTags stem) none none none none

/-! ## `MediaClassifier.classify_and_parse_file` (media_classifier.py 13-58) -/

inductive MediaCategory where
  | movie
  | tvShow
  | other
deriving DecidableEq

/-- The movie heuristic of media_classifier.py lines 49-52. -/
def movieSignals (stem : List Char) : Bool :=
  (parseMovie stem).year.isSome || (parseMovie stem).resolution.isSome ||
    (parseMovie stem).source.isSome || (parseMovie stem).video_format.isSome

/-- Classification of a filename stem: TV first (both season and episode
present), then the movie heuristic, else Other. -/
def classifyStem (stem : List Char) : MediaCategory :=
  if (parseTv stem).season.isSome && (parseTv stem).episode.isSome then
    MediaCategory.tvShow
  else if movieSignals stem then MediaCategory.movie
  else MediaCategory.other

/-- `os.path.splitext` for a plain basename: split at the last dot unless
every character before it is a dot. -/
def lastIdxOf (c : Char) : List Char → Option Nat
  | [] => none
  | x :: r =>
    match lastIdxOf c r with
    | some i => some (i + 1)
    | none => if x = c then some 0 else none

def splitExt (s : List Char) : List Char × List Char :=
  match lastIdxOf '.' s with
  | some i => if (s.take i).all (fun c => c = '.') then (s, []) else (s.take i, s.drop i)
  | none => (s, [])

/-- `os.path.basename` for slash-separated paths. -/
def pyBasename (p : List Char) : List Char :=
  (p.reverse.takeWhile (fun c => c ≠ '/')).reverse

/-- `classify_and_parse_file`'s category for a full path. -/
def classifyPath (path : List Char) : MediaCategory :=
  classifyStem (splitExt (pyBasename path)).1

/-! ## `FileTracker.find_file` matching logic (filetracker.py 11-221) -/

/-- Python substring test `sub in s`. -/
def listStartsWith : List Char → List Char → Bool
  | [], _ => true
  | _ :: _, [] => false
  | a :: as, b :: bs => a == b && listStartsWith as bs

def listContainsSub (sub s : List Char) : Bool :=
  match s with
  | [] => sub.isEmpty
  | _ :: rest => listStartsWith sub s || listContainsSub sub rest

/-- `term.lower().strip()` / `file.lower().strip()` (lines 41, 93-94). -/
def lowerStrip (s : List Char) : List Char := pyStrip (s.map lowerChar)

/-- Exact-mode decision (lines 113-139): the prepared term against the full
filename, else against the base name. -/
def exactMatch (term file : List Char) : Bool :=
  let prepared := lowerStrip term
  prepared == lowerStrip file || prepared == lowerStrip (splitExt file).1

/-- Season parsed from the raw search term (line 53). -/
def termSeason (term : List Char) : Option Nat :=
  match extractSxE term with
  | some (se, _, _, _) => se
  | none => none

/-- Episode capture of the raw search term. -/
def termEpStr (term : List Char) : Option (List Char) :=
  match extractSxE term with
  | some (_, ep, _, _) => some ep
  | none => none

/-- Normalized title part of the search term (lines 55-59): the text before
a SxxExx token if there is one, else the whole normalized term. -/
def termTitlePart (term : List Char) : List Char :=
  match extractSxE term with
  | some (_, _, st, _) => pyNormalize (pyStrip (term.take st))
  | none => pyNormalize term

/-- Season parsed from the candidate stem (line 158). -/
def fileSeason (stem : List Char) : Option Nat :=
  match extractSxE stem with
  | some (se, _, _, _) => se
  | none => none

/-- Episode capture of the candidate stem. -/
def fileEpStr (stem : List Char) : Option (List Char) :=
  match extractSxE stem with
  | some (_, ep, _, _) => some ep
  | none => none

/-- Title part of the candidate stem (lines 160-168): text before its SxxExx
token (stripped) if present, else the whole stem; then normalized. -/
def fileTitlePartRaw (stem : List Char) : List Char :=
  match extractSxE stem with
  | some (_, _, st, _) => pyStrip (stem.take st)
  | none => stem

/-- Python `str.split('-')`. -/
def splitOnDash : List Char → List (List Char)
  | [] => [[]]
  | c :: r =>
    if c = '-' then [] :: splitOnDash r
    else
      match splitOnDash r with
      | g :: gs => (c :: g) :: gs
      | [] => [[c]]

/-- Episode integers from an episode capture: split on `-`, parse each
fragment with `int`, silently dropping fragments that fail (lines 183-199). -/
def epIntsOf : Option (List Char) → List Nat
  | none => []
  | some e => (splitOnDash e).filterMap pyParseNat

/-- `is_title_match` (lines 170-178). -/
def isTitleMatch (term stem : List Char) : Bool :=
  let tp := termTitlePart term
  tp.isEmpty || listContainsSub tp (pyNormalize (fileTitlePartRaw stem))

/-- `is_sxe_match` (lines 181-210). -/
def isSxeMatch (term stem : List Char) : Bool :=
  match termSeason term with
  | none => true
  | some s =>
    let sEps := epIntsOf (termEpStr term)
    let fEp := fileEpStr stem
    let fEps := epIntsOf fEp
    if fileSeason stem ≠ some s then false
    else if fEp = none ∨ ¬sEps.any (fun e => fEps.contains e) then false
    else true

/-- The SxE-decomposition path of the smart search (lines 156-219): runs only
when the term contributed a season or a title part, and matches when the
title check, the SxE check and that same guard all hold (line 214). -/
def smartSxePath (term stem : List Char) : Bool :=
  if (termSeason term).isSome || !(termTitlePart term).isEmpty then
    isTitleMatch term stem && isSxeMatch term stem &&
      ((termSeason term).isSome || !(termTitlePart term).isEmpty)
  else false

/-- Smart-mode decision for one candidate stem (lines 140-219): the cheap
normalized-substring test first (line 147), then the SxE path. -/
def smartMatch (term stem : List Char) : Bool :=
  if listContainsSub (pyNormalize term) (pyNormalize stem) then true
  else smartSxePath term stem

/-! ## The cancellable walk of `find_file` (filetracker.py 79-90)

The walk is modelled over the directory list produced by `os.walk`: one stop
check at the head of each directory, one before each file.  Checks are
numbered consecutively; `sig t` is the value `stop_event.is_set()` would
return at the `t`-th check.  The per-file processing (lines 92-219) is
abstracted as the predicate `p`: a file is appended to the accumulator
exactly when `p` holds for it. -/

/-- Inner `for file in files` loop: returns (next check index, accumulator,
stopped?). -/
def dirStep (p : List Char → Bool) (sig : Nat → Bool) :
    List (List Char) → Nat → List (List Char) → Nat × List (List Char) × Bool
  | [], t, acc => (t, acc, false)
  | f :: fs, t, acc =>
    if sig t then (t, acc, true)
    else dirStep p sig fs (t + 1) (acc ++ if p f then [f] else [])

/-- Outer `for root, dirs, files in os.walk(...)` loop. -/
def findLoop (p : List Char → Bool) (sig : Nat → Bool) :
    List (List (List Char)) → Nat → List (List Char) → List (List Char)
  | [], _, acc => acc
  | fs :: ds, t, acc =>
    if sig t then acc
    else
      match dirStep p sig fs (t + 1) acc with
      | (_, acc', true) => acc'
      | (t', acc', false) => findLoop p sig ds t' acc'

/-- The files of one directory paired with their check indices. -/
def zipChecks : List (List Char) → Nat → List (Nat × List Char)
  | [], _ => []
  | f :: fs, t => (t, f) :: zipChecks fs (t + 1)

/-- All files of the walk paired with their check indices. -/
def timedFiles : List (List (List Char)) → Nat → List (Nat × List Char)
  | [], _ => []
  | fs :: ds, t => zipChecks fs (t + 1) ++ timedFiles ds (t + 1 + fs.length)

/-! ### The walk returns exactly what was accumulated before the stop -/

theorem zipChecks_time_ge (fs : List (List Char)) :
    ∀ (t : Nat) (tf : Nat × List Char), tf ∈ zipChecks fs t → t ≤ tf.1 := by
  induction fs with
  | nil => intro t tf h; simp [zipChecks] at h
  | cons f fs ih =>
    intro t tf h
    unfold zipChecks at h
    rcases List.mem_cons.mp h with h' | h'
    · rw [h']
    · exact Nat.le_of_succ_le (ih (t + 1) tf h')

theorem timedFiles_time_ge (ds : List (List (List Char))) :
    ∀ (t : Nat) (tf : Nat × List Char), tf ∈ timedFiles ds t → t ≤ tf.1 := by
  induction ds with
  | nil => intro t tf h; simp [timedFiles] at h
  | cons fs ds ih =>
    intro t tf h
    unfold timedFiles at h
    rcases List.mem_append.mp h with h' | h'
    · exact Nat.le_of_succ_le (zipChecks_time_ge fs (t + 1) tf h')
    · have := ih (t + 1 + fs.length) tf h'
      omega

theorem filter_killed (p : List Char → Bool) (sig : Nat → Bool)
    (hmono : ∀ i j, i ≤ j → sig i = true → sig j = true)
    (t0 : Nat) (hsig : sig t0 = true) (L : List (Nat × List Char))
    (hL : ∀ tf ∈ L, t0 ≤ tf.1) :
    L.filter (fun tf => !sig tf.1 && p tf.2) = [] := by
  induction L with
  | nil => rfl
  | cons tf L ih =>
    have h1 : sig tf.1 = true := hmono t0 tf.1 (hL tf (List.mem_cons_self tf L)) hsig
    rw [List.filter_cons]
    rw [if_neg (by simp [h1])]
    exact ih (fun x hx => hL x (List.mem_cons_of_mem tf hx))

theorem zipChecks_cons (f : List Char) (fs : List (List Char)) (t : Nat) :
    zipChecks (f :: fs) t = (t, f) :: zipChecks fs (t + 1) := rfl

theorem timedFiles_cons (fs : List (List Char)) (ds : List (List (List Char))) (t : Nat) :
    timedFiles (fs :: ds) t = zipChecks fs (t + 1) ++ timedFiles ds (t + 1 + fs.length) := rfl

theorem dirStep_cons (p : List Char → Bool) (sig : Nat → Bool) (f : List Char)
    (fs : List (List Char)) (t : Nat) (acc : List (List Char)) :
    dirStep p sig (f :: fs) t acc =
      if sig t then (t, acc, true)
      else dirStep p sig fs (t + 1) (acc ++ if p f then [f] else []) := rfl

theorem findLoop_cons (p : List Char → Bool) (sig : Nat → Bool) (fs : List (List Char))
    (ds : List (List (List Char))) (t : Nat) (acc : List (List Char)) :
    findLoop p sig (fs :: ds) t acc =
      if sig t then acc
      else
        match dirStep p sig fs (t + 1) acc with
        | (_, acc', true) => acc'
        | (t', acc', false) => findLoop p sig ds t' acc' := rfl

theorem dirStep_spec (p : List Char → Bool) (sig : Nat → Bool)
    (hmono : ∀ i j, i ≤ j → sig i = true → sig j = true) :
    ∀ (fs : List (List Char)) (t : Nat) (acc : List (List Char)),
      (dirStep p sig fs t acc).2.1 =
        acc ++ ((zipChecks fs t).filter (fun tf => !sig tf.1 && p tf.2)).map Prod.snd ∧
      ((dirStep p sig fs t acc).2.2 = false →
        (dirStep p sig fs t acc).1 = t + fs.length) ∧
      ((dirStep p sig fs t acc).2.2 = true →
        sig (dirStep p sig fs t acc).1 = true ∧
        (dirStep p sig fs t acc).1 ≤ t + fs.length) := by
  intro fs
  induction fs with
  | nil =>
    intro t acc
    refine ⟨by simp [dirStep, zipChecks], fun _ => by simp [dirStep], fun h => ?_⟩
    simp [dirStep] at h
  | cons f fs ih =>
    intro t acc
    rw [dirStep_cons]
    by_cases hsig : sig t = true
    · rw [if_pos hsig]
      refine ⟨?_, fun h => by simp at h, fun _ => ⟨hsig, by simp⟩⟩
      have hz : (zipChecks (f :: fs) t).filter (fun tf => !sig tf.1 && p tf.2) = [] :=
        filter_killed p sig hmono t hsig _ (zipChecks_time_ge (f :: fs) t)
      rw [hz]
      simp
    · rw [if_neg hsig]
      have hsig' : sig t = false := by
        cases h : sig t with
        | false => rfl
        | true => exact absurd h hsig
      obtain ⟨ih1, ih2, ih3⟩ := ih (t + 1) (acc ++ if p f then [f] else [])
      refine ⟨?_, fun h => by rw [ih2 h]; simp [List.length_cons]; omega, fun h => ?_⟩
      · rw [ih1, zipChecks_cons]
        cases hp : p f with
        | true => simp [List.filter_cons, hsig', hp, List.append_assoc]
        | false => simp [List.filter_cons, hsig', hp]
      · obtain ⟨hs, hle⟩ := ih3 h
        exact ⟨hs, by simp only [List.length_cons]; omega⟩

theorem findLoop_spec (p : List Char → Bool) (sig : Nat → Bool)
    (hmono : ∀ i j, i ≤ j → sig i = true → sig j = true) :
    ∀ (ds : List (List (List Char))) (t : Nat) (acc : List (List Char)),
      findLoop p sig ds t acc =
        acc ++ ((timedFiles ds t).filter (fun tf => !sig tf.1 && p tf.2)).map Prod.snd := by
  intro ds
  induction ds with
  | nil =>
    intro t acc
    simp [findLoop, timedFiles]
  | cons fs ds ih =>
    intro t acc
    rw [findLoop_cons, timedFiles_cons]
    by_cases hsig : sig t = true
    · rw [if_pos hsig]
      have hz : (zipChecks fs (t + 1) ++ timedFiles ds (t + 1 + fs.length)).filter
          (fun tf => !sig tf.1 && p tf.2) = [] := by
        refine filter_killed p sig hmono t hsig _ ?_
        intro tf htf
        rcases List.mem_append.mp htf with h' | h'
        · exact Nat.le_of_succ_le (zipChecks_time_ge fs (t + 1) tf h')
        · have := timedFiles_time_ge ds (t + 1 + fs.length) tf h'
          omega
      rw [hz]
      simp
    · rw [if_neg hsig]
      obtain ⟨d1, d2, d3⟩ := dirStep_spec p sig hmono fs (t + 1) acc
      rw [List.filter_append, List.map_append]
      cases hD : dirStep p sig fs (t + 1) acc with
      | mk t' rest =>
        cases rest with
        | mk acc' stopped =>
          rw [hD] at d1 d2 d3
          dsimp only at d1 d2 d3 ⊢
          cases stopped with
          | true =>
            obtain ⟨hs, hle⟩ := d3 rfl
            have hz : (timedFiles ds (t + 1 + fs.length)).filter
                (fun tf => !sig tf.1 && p tf.2) = [] := by
              refine filter_killed p sig hmono t' hs _ ?_
              intro tf htf
              have := timedFiles_time_ge ds (t + 1 + fs.length) tf htf
              omega
            rw [hz]
            simp [d1]
          | false =>
            show findLoop p sig ds t' acc' = _
            rw [ih t' acc']
            rw [d2 rfl, d1]
            simp [List.append_assoc]

/-! ### The season digits of a SxxExx match always parse -/

theorem sxeSeason_digits (r : List Char) (n : Nat) (sd ep : List Char)
    (h : sxeSeason r = some (n, sd, ep)) :
    sd ≠ [] ∧ sd.all Char.isDigit = true := by
  cases r with
  | nil => simp [sxeSeason] at h
  | cons d1 r1 =>
    cases r1 with
    | nil => simp [sxeSeason] at h
    | cons d2 r2 =>
      unfold sxeSeason at h
      dsimp only at h
      by_cases hd1 : d1.isDigit = true
      · rw [if_pos hd1] at h
        by_cases hd2 : d2.isDigit = true
        · rw [if_pos hd2] at h
          cases he : sxeEp r2 with
          | some q =>
            rw [he] at h
            obtain ⟨m, e⟩ := q
            simp only [Option.some.injEq, Prod.mk.injEq] at h
            rw [← h.2.1]
            simp [hd1, hd2]
          | none =>
            rw [he] at h
            cases he2 : sxeEp (d2 :: r2) with
            | some q =>
              rw [he2] at h
              obtain ⟨m, e⟩ := q
              simp only [Option.some.injEq, Prod.mk.injEq] at h
              rw [← h.2.1]
              simp [hd1]
            | none =>
              rw [he2] at h
              simp at h
        · rw [if_neg hd2] at h
          cases he2 : sxeEp (d2 :: r2) with
          | some q =>
            rw [he2] at h
            obtain ⟨m, e⟩ := q
            simp only [Option.some.injEq, Prod.mk.injEq] at h
            rw [← h.2.1]
            simp [hd1]
          | none =>
            rw [he2] at h
            simp at h
      · rw [if_neg hd1] at h
        simp at h

theorem sxeAt_digits (prev : Option Char) (l : List Char) (n : Nat)
    (sd ep : List Char) (h : sxeAt prev l = some (n, sd, ep)) :
    sd ≠ [] ∧ sd.all Char.isDigit = true := by
  cases l with
  | nil => simp [sxeAt] at h
  | cons c rest =>
    unfold sxeAt at h
    dsimp only at h
    by_cases hb : (bdryBefore prev && (lowerChar c = 's')) = true
    · rw [if_pos hb] at h
      cases hs : sxeSeason rest with
      | none => rw [hs] at h; simp at h
      | some q =>
        rw [hs] at h
        obtain ⟨m, sd', ep'⟩ := q
        simp only [Option.map_some', Option.some.injEq, Prod.mk.injEq] at h
        rw [← h.2.1]
        exact sxeSeason_digits rest m sd' ep' hs
    · rw [if_neg hb] at h
      simp at h

theorem sxeScan_digits (l : List Char) :
    ∀ (prev : Option Char) (i st en : Nat) (sd ep : List Char),
      sxeScan prev l i = some (st, en, sd, ep) →
      sd ≠ [] ∧ sd.all Char.isDigit = true := by
  induction l with
  | nil => intro prev i st en sd ep h; simp [sxeScan] at h
  | cons c rest ih =>
    intro prev i st en sd ep h
    unfold sxeScan at h
    cases ha : sxeAt prev (c :: rest) with
    | some q =>
      rw [ha] at h
      obtain ⟨n, sd', ep'⟩ := q
      simp only [Option.some.injEq, Prod.mk.injEq] at h
      rw [← h.2.2.1]
      exact sxeAt_digits prev (c :: rest) n sd' ep' ha
    | none =>
      rw [ha] at h
      exact ih (some c) (i + 1) st en sd ep h

/-- Whenever the SxxExx extractor matches, the `int` conversion of its season
group succeeds, so the returned season is never `None` despite the
`try/except` in the source. -/
theorem extractSxE_season_isSome (stem : List Char) (se : Option Nat)
    (ep : List Char) (st en : Nat)
    (h : extractSxE stem = some (se, ep, st, en)) : se.isSome = true := by
  unfold extractSxE at h
  cases hs : sxeScan none stem 0 with
  | none => rw [hs] at h; simp at h
  | some q =>
    rw [hs] at h
    obtain ⟨st', en', sd, ep'⟩ := q
    simp only [Option.some.injEq, Prod.mk.injEq] at h
    obtain ⟨hne, hdig⟩ := sxeScan_digits stem none 0 st' en' sd ep' hs
    rw [← h.1]
    unfold pyParseNat
    rw [if_pos ⟨hne, hdig⟩]
    rfl

/-- `parse_tv_show_filename` reports both a season and an episode exactly
when the SxxExx extractor matched (tv_show_parser.py 39-41). -/
theorem parseTv_season_episode (stem : List Char) :
    ((parseTv stem).season.isSome && (parseTv stem).episode.isSome) = true ↔
      (extractSxE stem).isSome = true := by
  unfold parseTv
  cases h : extractSxE stem with
  | some r =>
    obtain ⟨se, ep, st, en⟩ := r
    dsimp only [mkTvParsed]
    rw [extractSxE_season_isSome stem se ep st en h]
    simp
  | none =>
    cases hy : extractYear stem with
    | some y => simp [mkTvParsed]
    | none => simp [mkTvParsed]

/-! ## Claim theorems -/

/-- Claim C1: for every filename stem containing a valid SxxExx token (as
recognized by the extractor embedded from base_parser.py line 42), `classify`
returns category TV Show regardless of any movie-like tokens also present;
it returns Movie exactly when TV classification failed and at least one of
year, resolution, source, video_format was extracted; otherwise Other.  TV
is attempted first, then Movie, then Other, in exactly that order. -/
theorem claim1_classification_order (stem : List Char) :
    ((extractSxE stem).isSome = true → classifyStem stem = MediaCategory.tvShow) ∧
    (classifyStem stem = MediaCategory.movie ↔
      extractSxE stem = none ∧ movieSignals stem = true) ∧
    (classifyStem stem = MediaCategory.other ↔
      extractSxE stem = none ∧ movieSignals stem = false) := by
  have htv := parseTv_season_episode stem
  unfold classifyStem
  by_cases h : (extractSxE stem).isSome = true
  · rw [if_pos (htv.mpr h)]
    have hne : ¬extractSxE stem = none := fun h0 => by rw [h0] at h; simp at h
    exact ⟨fun _ => rfl,
      ⟨fun hx => absurd hx (by decide), fun hx => absurd hx.1 hne⟩,
      ⟨fun hx => absurd hx (by decide), fun hx => absurd hx.1 hne⟩⟩
  · have hnone : extractSxE stem = none := by
      cases hx : extractSxE stem with
      | none => rfl
      | some r => rw [hx] at h; simp at h
    have hb : ¬((parseTv stem).season.isSome && (parseTv stem).episode.isSome) = true :=
      fun hx => h (htv.mp hx)
    rw [if_neg hb]
    by_cases hm : movieSignals stem = true
    · rw [if_pos hm]
      exact ⟨fun hx => absurd hx h,
        ⟨fun _ => ⟨hnone, hm⟩, fun _ => rfl⟩,
        ⟨fun hx => absurd hx (by decide), fun hx => absurd hm (by simp [hx.2])⟩⟩
    · have hm' : movieSignals stem = false := by
        cases hx : movieSignals stem with
        | false => rfl
        | true => exact absurd hx hm
      rw [if_neg hm]
      exact ⟨fun hx => absurd hx h,
        ⟨fun hx => absurd hx (by decide), fun hx => absurd hx.2 (by simp [hm'])⟩,
        ⟨fun _ => ⟨hnone, hm'⟩, fun _ => rfl⟩⟩

/-- Witness for C1: a stem with a year, a resolution, a source and a video
format token is still classified TV Show because it contains `S01E02`. -/
theorem claim1_classification_order_witness :
    classifyStem ("The.Heist.2019.S01E02.1080p.BluRay.x264-GRP".toList) =
      MediaCategory.tvShow :=
  (claim1_classification_order _).1 (by decide)

/-- Claim C7: the comparison normalization is idempotent; concretely
`normalize("My.Show_Name-2023") = "my show name 2023"`, and empty or `None`
input yields the empty string. -/
theorem claim7_normalize_idempotent :
    (∀ x : List Char, pyNormalize (pyNormalize x) = pyNormalize x) ∧
    pyNormalize ("My.Show_Name-2023".toList) = "my show name 2023".toList ∧
    pyNormalize [] = [] ∧ pyNormalizeOpt none = [] :=
  ⟨pyNormalize_idem, by decide, rfl, rfl⟩

/-- Claim C5: in exact mode the match holds exactly when the lowercased,
stripped term equals the lowercased, stripped full filename or the same of
the filename without its extension; separators are not normalized, so
"Show S04E04" matches "Show S04E04.mkv" but not "Show.S04E04.mkv". -/
theorem claim5_exact_mode (term file : List Char) :
    (exactMatch term file = true ↔
      lowerStrip term = lowerStrip file ∨
        lowerStrip term = lowerStrip (splitExt file).1) ∧
    exactMatch ("Show S04E04".toList) ("Show S04E04.mkv".toList) = true ∧
    exactMatch ("Show S04E04".toList) ("Show.S04E04.mkv".toList) = false := by
  refine ⟨?_, by decide, by decide⟩
  unfold exactMatch
  simp

/-- Claim C2: in smart mode, when the cheap normalized-substring check did
not match, the SxE-decomposition path matches exactly when the title match
AND the episode match both hold, and only when the term contributed a season
or a non-empty title part. -/
theorem claim2_smart_sxe_conjunction (term stem : List Char)
    (h : listContainsSub (pyNormalize term) (pyNormalize stem) = false) :
    smartMatch term stem = true ↔
      isTitleMatch term stem = true ∧ isSxeMatch term stem = true ∧
        ((termSeason term).isSome || !(termTitlePart term).isEmpty) = true := by
  unfold smartMatch
  rw [h]
  simp only [Bool.false_eq_true, if_false]
  unfold smartSxePath
  by_cases hg : ((termSeason term).isSome || !(termTitlePart term).isEmpty) = true
  · rw [if_pos hg]
    simp [hg, Bool.and_eq_true]
  · rw [if_neg hg]
    constructor
    · intro hx
      simp at hx
    · rintro ⟨_, _, hx⟩
      exact absurd hx hg

/-- Witness for C2: the canonical smart-search example; the cheap substring
check fails, the decomposition path matches. -/
theorem claim2_smart_sxe_conjunction_witness :
    smartMatch ("game of s04e04".toList) ("Game.of.Thrones.S04E04.1080p".toList) = true :=
  (claim2_smart_sxe_conjunction _ _ (by decide)).mpr
    ⟨by decide, by decide, by decide⟩

/-- Claim C6: in smart mode, when the term contains a season, the episode
check holds exactly when the file's parsed season is integer-equal to the
term's season and some episode integer of the term (split on `-`, non-numeric
fragments dropped) occurs in the file's episode integer list; a term with a
season whose candidate file has no parseable episode never matches on the
SxE path. -/
theorem claim6_episode_check (term stem : List Char) (s : Nat)
    (h : termSeason term = some s) :
    (isSxeMatch term stem = true ↔
      (fileSeason stem = some s ∧ (fileEpStr stem).isSome = true ∧
        (epIntsOf (termEpStr term)).any
          (fun e => (epIntsOf (fileEpStr stem)).contains e) = true)) ∧
    (fileEpStr stem = none → smartSxePath term stem = false) := by
  have hsxe : ∀ hval : isSxeMatch term stem = true,
      fileSeason stem = some s ∧ (fileEpStr stem).isSome = true ∧
        (epIntsOf (termEpStr term)).any
          (fun e => (epIntsOf (fileEpStr stem)).contains e) = true := by
    intro hval
    unfold isSxeMatch at hval
    rw [h] at hval
    dsimp only at hval
    by_cases h1 : fileSeason stem ≠ some s
    · rw [if_pos h1] at hval
      exact absurd hval (by simp)
    · rw [if_neg h1] at hval
      by_cases h2 : fileEpStr stem = none ∨
          ¬((epIntsOf (termEpStr term)).any
            (fun e => (epIntsOf (fileEpStr stem)).contains e)) = true
      · rw [if_pos h2] at hval
        exact absurd hval (by simp)
      · rw [if_neg h2] at hval
        push_neg at h1
        rw [not_or] at h2
        obtain ⟨h2a, h2b⟩ := h2
        refine ⟨h1, ?_, ?_⟩
        · cases hfe : fileEpStr stem with
          | none => exact absurd hfe h2a
          | some e => rfl
        · cases hany : (epIntsOf (termEpStr term)).any
              (fun e => (epIntsOf (fileEpStr stem)).contains e) with
          | true => rfl
          | false => exact absurd hany (by simpa using h2b)
  constructor
  · constructor
    · exact hsxe
    · rintro ⟨h1, h2, h3⟩
      unfold isSxeMatch
      rw [h]
      dsimp only
      rw [if_neg (by simp [h1])]
      rw [if_neg ?hcond]
      case hcond =>
        rw [not_or]
        refine ⟨?_, by simpa using h3⟩
        cases hfe : fileEpStr stem with
        | none => rw [hfe] at h2; simp at h2
        | some e => simp
  · intro hEp
    have hs : isSxeMatch term stem = false := by
      cases hval : isSxeMatch term stem with
      | false => rfl
      | true =>
        have := (hsxe hval).2.1
        rw [hEp] at this
        simp at this
    unfold smartSxePath
    split_ifs with hg
    · rw [hs]
      simp
    · rfl

/-- Witness for C6: a term with season 1 against a file without any SxxExx
token; the SxE path yields no match. -/
theorem claim6_episode_check_witness :
    smartSxePath ("show s01e01".toList) ("randomfile".toList) = false :=
  (claim6_episode_check ("show s01e01".toList) ("randomfile".toList) 1
    (by decide)).2 (by decide)

theorem lowerChar_fix_of_normStep (c : Char) (h : normStep c = c) :
    lowerChar c = c := by
  by_cases hs : isSepChar (lowerChar c) = true
  · rw [normStep_of_sep c hs] at h
    rw [← h]
    decide
  · rw [normStep_of_not_sep c hs] at h
    exact h

theorem map_lowerChar_fixed (s : List Char) (h : ∀ c ∈ s, lowerChar c = c) :
    s.map lowerChar = s := by
  induction s with
  | nil => rfl
  | cons x r ih =>
    rw [List.map_cons, h x (List.mem_cons_self x r),
      ih (fun c hc => h c (List.mem_cons_of_mem x hc))]

/-- The tag-cleaned text is already lowercase, so comparing it against the
lowercase stoplist is a case-insensitive comparison. -/
theorem cleanAllTags_lower_fixed (s : List Char) :
    (cleanAllTags s).map lowerChar = cleanAllTags s := by
  unfold cleanAllTags
  apply map_lowerChar_fixed
  intro c hc
  exact lowerChar_fix_of_normStep c (pyNormalize_fixedChars _ c hc)

/-- Claim C8: for a stem with an SxxExx token, the episode title is `None`
exactly when the tag-cleaned text after the token is empty or (case-
insensitively, the candidate being already lowercase) one of the stoplist
tokens hdtv, webrip, bluray, x264, x265, killers, proper, repack; otherwise
the cleaned candidate is reported. -/
theorem claim8_episode_title_stoplist (stem : List Char) (se : Option Nat)
    (ep : List Char) (st en : Nat)
    (h : extractSxE stem = some (se, ep, st, en)) :
    (parseTv stem).episode_title =
      (if cleanAllTags (postSxePart stem en) = [] ∨
          cleanAllTags (postSxePart stem en) ∈ tvStopList
       then none
       else some (cleanAllTags (postSxePart stem en))) ∧
    (cleanAllTags (postSxePart stem en)).map lowerChar =
      cleanAllTags (postSxePart stem en) := by
  refine ⟨?_, cleanAllTags_lower_fixed _⟩
  unfold parseTv
  rw [h]
  simp only [mkTvParsed]
  by_cases hc : cleanAllTags (postSxePart stem en) = [] ∨
      cleanAllTags (postSxePart stem en) ∈ tvStopList
  · rw [if_pos hc]
    have hn : ¬(cleanAllTags (postSxePart stem en) ≠ [] ∧
        cleanAllTags (postSxePart stem en) ∉ tvStopList) := by
      rcases hc with hc | hc
      · exact fun hx => hx.1 hc
      · exact fun hx => hx.2 hc
    rw [if_neg hn]
  · rw [if_neg hc]
    push_neg at hc
    rw [if_pos ⟨hc.1, hc.2⟩]

/-- Witness for C8: `"Show S01E02 The Dinner Party 720p"` keeps
`"the dinner party"` as its episode title. -/
theorem claim8_episode_title_stoplist_witness :
    (parseTv ("Show S01E02 The Dinner Party 720p".toList)).episode_title =
      some ("the dinner party".toList) :=
  (claim8_episode_title_stoplist ("Show S01E02 The Dinner Party 720p".toList)
    (some 1) (['0', '2']) 5 11 (by decide)).1.trans (by decide)

/-! ### The movie year is the first four-digit token, with no range check -/

theorem yearCap_spec (l : List Char) :
    ∀ (prev : Option Char) (n : Nat) (y : List Char),
      reCapAux yearMatcher prev l = some (n, y) →
      y.length = 4 ∧ y.all Char.isDigit = true ∧ ∃ pre post, l = pre ++ y ++ post := by
  induction l with
  | nil =>
    intro prev n y h
    unfold reCapAux yearMatcher at h
    by_cases hb : bdryBefore prev = true
    · rw [if_pos hb] at h
      simp at h
    · rw [if_neg hb] at h
      simp at h
  | cons c0 rest ih =>
    intro prev n y h
    unfold reCapAux at h
    cases hm : yearMatcher prev (c0 :: rest) with
    | some r =>
      rw [hm] at h
      unfold yearMatcher at hm
      by_cases hb : bdryBefore prev = true
      case neg =>
        rw [if_neg hb] at hm
        simp at hm
      rw [if_pos hb] at hm
      cases rest with
      | nil => simp at hm
      | cons c1 r1 =>
        cases r1 with
        | nil => simp at hm
        | cons c2 r2 =>
          cases r2 with
          | nil => simp at hm
          | cons c3 r3 =>
            dsimp only at hm
            by_cases hd : (c0.isDigit && c1.isDigit && c2.isDigit && c3.isDigit
                && bdryAfter r3) = true
            · rw [if_pos hd] at hm
              rw [← hm] at h
              simp only [Option.some.injEq, Prod.mk.injEq] at h
              rw [← h.2]
              simp only [Bool.and_eq_true] at hd
              refine ⟨rfl, ?_, [], r3, rfl⟩
              simp [hd.1.1.1.1, hd.1.1.1.2, hd.1.1.2, hd.1.2]
            · rw [if_neg hd] at hm
              simp at hm
    | none =>
      rw [hm] at h
      obtain ⟨h1, h2, pre, post, hdec⟩ := ih (some c0) n y h
      exact ⟨h1, h2, c0 :: pre, post, by rw [hdec]; simp⟩

/-- Counterexample to C3: the movie parser reports `"3000"` as the year of
`"Film.3000"`, a four-digit token outside 1900-2099. -/
theorem claim3_year_range_counterexample :
    (parseMovie ("Film.3000".toList)).year = some ("3000".toList) ∧
    ¬(1900 ≤ digitsVal ("3000".toList) ∧ digitsVal ("3000".toList) ≤ 2099) := by
  constructor
  · decide
  · decide

/-- Claim C3 as amended: when the movie parser reports a year, the value is
the first word-bounded four-digit token of the stem — four digits, occurring
contiguously in the stem — but with NO range restriction (tokens such as 0123
or 3000 are reported as well). -/
theorem claim3_year_is_any_4digit_token (stem y : List Char)
    (h : (parseMovie stem).year = some y) :
    y.length = 4 ∧ y.all Char.isDigit = true ∧
      ∃ pre post, stem = pre ++ y ++ post := by
  unfold parseMovie at h
  dsimp only at h
  unfold reCap at h
  cases hr : reCapAux yearMatcher none stem with
  | none =>
    rw [hr] at h
    simp at h
  | some r =>
    rw [hr] at h
    simp only [Option.map_some', Option.some.injEq] at h
    obtain ⟨n, y'⟩ := r
    dsimp only at h
    rw [← h]
    exact yearCap_spec stem none n y' hr

/-- Witness for the amended C3 at the counterexample input. -/
theorem claim3_year_is_any_4digit_token_witness :
    ("3000".toList).length = 4 ∧ ("3000".toList).all Char.isDigit = true ∧
      ∃ pre post, "Film.3000".toList = pre ++ "3000".toList ++ post :=
  claim3_year_is_any_4digit_token _ _ (by decide)

/-! ### C4: the group-tag removal always runs, even with no tag present -/

/-- None of the nine recognized tag patterns of the claim (year, resolution,
source, video format, audio format, version, language, bit depth, HDR)
matches anywhere in the stem. -/
def noTagSignals (s : List Char) : Bool :=
  !reSearch yearMatcher s && !reSearch resolutionMatcher s &&
    !reSearch sourceMatcher s && !reSearch videoFormatMatcher s &&
    !reSearch audioFormatMatcher s && !reSearch versionMatcher s &&
    !reSearch languageMatcher s && !reSearch bitDepthMatcher s &&
    !reSearch hdrMatcher s

set_option maxHeartbeats 1600000 in
/-- Counterexample to C4: no tag pattern matches the bare stem "Inception",
yet `parse_movie` returns the empty title, not the normalized stem
"inception" — the release-group pattern swallowed the whole stem. -/
theorem claim4_bare_title_counterexample :
    noTagSignals ("Inception".toList) = true ∧
    ¬((parseMovie ("Inception".toList)).title = pyNormalize ("Inception".toList)) := by
  constructor
  · decide
  · decide

theorem parseMovie_title (stem : List Char) :
    (parseMovie stem).title = cleanAllTags stem := by
  dsimp only [parseMovie]

/-- Claim C4 as amended: when none of the recognized tag patterns matches,
the movie title equals the normalized stem AFTER the release-group removal
(which is applied unconditionally and may strip the trailing token or the
entire stem). -/
theorem claim4_title_after_group_strip (stem : List Char)
    (h : noTagSignals stem = true) :
    (parseMovie stem).title = pyNormalize (reSub groupTagMatcher stem) := by
  simp only [noTagSignals, Bool.and_eq_true, Bool.not_eq_true'] at h
  obtain ⟨⟨⟨⟨⟨⟨⟨⟨hy, hres⟩, hsrc⟩, hvid⟩, haud⟩, hver⟩, hlang⟩, hbit⟩, hhdr⟩ := h
  have hrepmono : ∀ prev l, (repackMatcher prev l).isSome = true →
      (versionMatcher prev l).isSome = true := by
    intro prev l hx
    exact altsMatcher_mono repackAlts versionAlts (by decide) prev l hx
  have hrep : reSearch repackMatcher stem = false :=
    reTest_mono repackMatcher versionMatcher hrepmono stem none hver
  rw [parseMovie_title]
  unfold cleanAllTags
  rw [reSub_of_not_found yearMatcher stem hy,
    reSub_of_not_found resolutionMatcher stem hres,
    reSub_of_not_found sourceMatcher stem hsrc,
    reSub_of_not_found videoFormatMatcher stem hvid,
    reSub_of_not_found audioFormatMatcher stem haud,
    reSub_of_not_found versionMatcher stem hver,
    reSub_of_not_found languageMatcher stem hlang,
    reSub_of_not_found bitDepthMatcher stem hbit,
    reSub_of_not_found hdrMatcher stem hhdr,
    reSub_of_not_found repackMatcher stem hrep]

/-- Witness for the amended C4 at the counterexample input. -/
theorem claim4_title_after_group_strip_witness :
    (parseMovie ("Inception".toList)).title =
      pyNormalize (reSub groupTagMatcher ("Inception".toList)) :=
  claim4_title_after_group_strip _ (by decide)

/-! ### C10: the group-tag pattern fires on any separator-free stem -/

theorem takeWhile_all_eq (p : Char → Bool) (u : List Char)
    (h : ∀ c ∈ u, p c = true) : u.takeWhile p = u := by
  induction u with
  | nil => rfl
  | cons x r ih =>
    rw [List.takeWhile_cons, if_pos (h x (List.mem_cons_self x r)),
      ih (fun c hc => h c (List.mem_cons_of_mem x hc))]

theorem dropWhile_all_eq (p : Char → Bool) (u : List Char)
    (h : ∀ c ∈ u, p c = true) : u.dropWhile p = [] := by
  induction u with
  | nil => rfl
  | cons x r ih =>
    rw [List.dropWhile_cons, if_pos (h x (List.mem_cons_self x r)),
      ih (fun c hc => h c (List.mem_cons_of_mem x hc))]

theorem groupCoreRun_all (u : List Char) (hne : u ≠ [])
    (hall : ∀ c ∈ u, isGroupTagChar c = true) :
    groupCoreRun u false = some (u.length, u) := by
  simp only [groupCoreRun]
  rw [takeWhile_all_eq _ u hall, dropWhile_all_eq _ u hall]
  rw [if_neg (by simpa using hne)]
  simp

theorem groupCore_all (u : List Char) (hne : u ≠ [])
    (hall : ∀ c ∈ u, isGroupTagChar c = true) :
    groupCore u = some (u.length, u) := by
  cases u with
  | nil => exact absurd rfl hne
  | cons c u1 =>
    unfold groupCore
    dsimp only
    have hc : ¬c = '[' := by
      intro h0
      have hx := hall c (List.mem_cons_self c u1)
      rw [h0] at hx
      exact absurd hx (by decide)
    rw [if_neg hc]
    exact groupCoreRun_all (c :: u1) (by simp) hall

/-- Claim C10: for every non-empty stem made only of letters, digits, dots,
underscores and hyphens, `parse_movie` reports a non-null `group_tag`, and
the reported tag is a suffix of the stem itself — the trailing-token pattern
fires even when no actual release-group tag is present. -/
theorem claim10_group_tag_total (s : List Char) (h1 : s ≠ [])
    (h2 : ∀ c ∈ s, isGroupTagChar c = true) :
    ∃ g, (parseMovie s).group_tag = some g ∧ ∃ pre, s = pre ++ g := by
  cases s with
  | nil => exact absurd rfl h1
  | cons c cs =>
    have hfire : ∃ r, groupTagMatcher none (c :: cs) = some r ∧
        ∃ pre, c :: cs = pre ++ r.2 := by
      unfold groupTagMatcher
      dsimp only
      by_cases hsep : isGroupSep c = true
      · rw [if_pos hsep]
        cases cs with
        | nil =>
          have hcore : groupCore ([] : List Char) = none := rfl
          rw [hcore]
          have hc1 : groupCore [c] = some (1, [c]) :=
            groupCore_all [c] (by simp) (by
              intro x hx
              rcases List.mem_singleton.mp hx with rfl
              exact h2 x (List.mem_singleton.mpr rfl))
          exact ⟨(1, [c]), hc1, [], rfl⟩
        | cons d ds =>
          have hcs : groupCore (d :: ds) = some ((d :: ds).length, d :: ds) :=
            groupCore_all (d :: ds) (by simp)
              (fun x hx => h2 x (List.mem_cons_of_mem c hx))
          rw [hcs]
          exact ⟨((d :: ds).length + 1, d :: ds), rfl, [c], rfl⟩
      · rw [if_neg hsep]
        have hall : groupCore (c :: cs) = some ((c :: cs).length, c :: cs) :=
          groupCore_all (c :: cs) (by simp) h2
        exact ⟨((c :: cs).length, c :: cs), hall, [], rfl⟩
    obtain ⟨r, hr, pre, hpre⟩ := hfire
    refine ⟨r.2, ?_, pre, hpre⟩
    show (reCapAux groupTagMatcher none (c :: cs)).map (fun q => q.2) = some r.2
    unfold reCapAux
    rw [hr]
    rfl

/-- Witness for C10: a bare one-word title yields itself as the group tag. -/
theorem claim10_group_tag_total_witness :
    (∃ g, (parseMovie ("Inception".toList)).group_tag = some g ∧
      ∃ pre, "Inception".toList = pre ++ g) ∧
    (parseMovie ("Inception".toList)).group_tag = some ("Inception".toList) :=
  ⟨claim10_group_tag_total _ (by decide) (by decide), by decide⟩

/-! ### C9: partial results on cancellation -/

/-- Claim C9: for every per-file decision `p` and monotone cancellation
signal (once set, it stays set — `threading.Event` semantics), the walk of
`find_file` returns exactly the matches among the files whose stop check
passed (that is, the partial list accumulated before the signal was
observed): it is a total function of the inputs — no error — and accumulated
records are never discarded. -/
theorem claim9_cancellation_returns_accumulated (p : List Char → Bool) (sig : Nat → Bool)
    (dirs : List (List (List Char)))
    (hmono : ∀ i j, i ≤ j → sig i = true → sig j = true) :
    findLoop p sig dirs 0 [] =
      ((timedFiles dirs 0).filter (fun tf => !sig tf.1 && p tf.2)).map Prod.snd := by
  have h := findLoop_spec p sig hmono dirs 0 []
  simpa using h

def walkPred : List Char → Bool := fun _ => true

def walkSig : Nat → Bool := fun t => decide (3 ≤ t)

def walkDirs : List (List (List Char)) :=
  [["a".toList, "b".toList], ["c".toList], ["d".toList]]

/-- Witness for C9: the signal becomes set at the second directory check;
the walk returns exactly the two files processed before it. -/
theorem claim9_cancellation_returns_accumulated_witness :
    findLoop walkPred walkSig walkDirs 0 [] = ["a".toList, "b".toList] :=
  (claim9_cancellation_returns_accumulated walkPred walkSig walkDirs
    (fun i j hij hi => by
      simp only [walkSig, decide_eq_true_eq] at hi ⊢
      omega)).trans (by decide)
